import Mathlib

/-!
Verification of the NarrowMind-S2 statistical sentence-ranking model.

The JavaScript source is shallowly embedded: strings become `List Char`,
JS numbers become `ℝ` (exact real arithmetic in place of floating point),
JS `Map`s become association lists with insert-or-overwrite semantics,
and the in-place mutation of the IDF cache is modelled by explicit state
passing.  The Unicode character classes `\p{L}`/`\p{N}` and JS
`toLowerCase`/`trim` are modelled by Lean's ASCII `Char.isAlpha`,
`Char.isDigit`, `Char.toLower` and `Char.isWhitespace`; all concrete
inputs considered are ASCII, where the two agree.
-/

namespace NarrowMind

/-- Strings of the JS source are modelled as lists of characters. -/
abbrev Str := List Char

/-- Character data of a Lean string literal, used to write concrete inputs. -/
def chars (s : String) : Str := s.data

/-- Model of JS `String.prototype.toLowerCase` (ASCII range). -/
def lowerStr (s : Str) : Str := s.map Char.toLower

/-! ### Stemmer (`stem.js`) -/

/-- Source `isVowel`: membership in the fixed vowel set. -/
def isVowel (c : Char) : Bool := c ∈ chars "aeiou"

/-- Source `isConsonant`: membership in the 21 Latin consonants. -/
def isConsonant (c : Char) : Bool := c ∈ chars "bcdfghjklmnpqrstvwxyz"

/-- The ordered suffix priority list of `stem` (exact source order). -/
def longSuffixes : List Str :=
  [chars "ational", chars "ization", chars "tional", chars "ousness",
   chars "iveness", chars "fulness", chars "ousli", chars "alism",
   chars "aliti", chars "ation", chars "ator", chars "ement",
   chars "ment", chars "able", chars "ible", chars "ance",
   chars "ence", chars "ness", chars "tion", chars "sion",
   chars "ing", chars "ed", chars "er", chars "est",
   chars "ly", chars "ful", chars "less"]

/-- Post-processing applied after stripping one of the long suffixes:
e-dropping for `ed`/`ing`/`er`/`est`, then consonant-dedoubling for
`ed`/`ing` (guarded by the source's vowel test two characters back). -/
def postProcess (suffix st : Str) : Str :=
  if (suffix = chars "ed" ∨ suffix = chars "ing" ∨ suffix = chars "er" ∨
      suffix = chars "est") ∧ st.length > 1 ∧ st.getD (st.length - 1) ' ' = 'e' then
    st.take (st.length - 1)
  else if (suffix = chars "ed" ∨ suffix = chars "ing") ∧ st.length > 2 ∧
      isConsonant (st.getD (st.length - 1) ' ') ∧
      st.getD (st.length - 1) ' ' = st.getD (st.length - 2) ' ' ∧
      ¬ isVowel (st.getD (st.length - 3) ' ') then
    st.take (st.length - 1)
  else st

/-- The `for (const suffix of longSuffixes)` loop: first suffix that matches
with a residual stem of length ≥ 2 wins; shorter residuals fall through to
the next suffix, as in the source. -/
def tryLongSuffixes (lowerToken : Str) : List Str → Option Str
  | [] => none
  | suffix :: rest =>
    if suffix.isSuffixOf lowerToken ∧
        (lowerToken.take (lowerToken.length - suffix.length)).length ≥ 2 then
      some (postProcess suffix (lowerToken.take (lowerToken.length - suffix.length)))
    else tryLongSuffixes lowerToken rest

/-- Source `stem`: special cases, long-suffix loop, then plural rules.
The `es` branch of the source returns the same residual in both arms of its
inner `if`; the translation keeps the redundant conditional. -/
def stem (token : Str) : Str :=
  if token.length < 3 then lowerStr token
  else
    let lowerToken := lowerStr token
    if lowerToken = chars "was" ∨ lowerToken = chars "is" ∨ lowerToken = chars "are" then
      lowerToken
    else if lowerToken = chars "has" ∨ lowerToken = chars "had" ∨
        lowerToken = chars "have" then
      chars "hav"
    else
      match tryLongSuffixes lowerToken longSuffixes with
      | some st => st
      | none =>
        if (chars "ies").isSuffixOf lowerToken ∧ lowerToken.length > 4 then
          lowerToken.take (lowerToken.length - 3) ++ chars "y"
        else if (chars "es").isSuffixOf lowerToken ∧ lowerToken.length > 4 then
          let st := lowerToken.take (lowerToken.length - 2)
          if st.length > 1 ∧ isConsonant (st.getD (st.length - 1) ' ') then st else st
        else if (chars "s").isSuffixOf lowerToken ∧ lowerToken.length > 3 ∧
            lowerToken.getD (lowerToken.length - 2) ' ' ≠ 's' then
          lowerToken.take (lowerToken.length - 1)
        else lowerToken

/-! ### Tokenizer / segmenter -/

/-- A character the tokenizer keeps: the JS class `[\p{L}\p{N}]`
restricted to ASCII. -/
def isTokenChar (c : Char) : Bool := c.isAlpha || c.isDigit

/-- The sentence-delimiter class of `parseSentences`.  The source regex is
`[.!?,"""":;\n]+`: the four consecutive double-quote bytes collapse to the
single character `"`, so the set is `. ! ? , " : ; newline`. -/
def isSentenceDelim (c : Char) : Bool := c ∈ chars ".!?,\":;\n"

/-- Model of JS `String.prototype.trim` (ASCII whitespace). -/
def trim (s : Str) : Str :=
  ((s.dropWhile Char.isWhitespace).reverse.dropWhile Char.isWhitespace).reverse

/-- Model of JS `String.prototype.split` on a single-character class: every
delimiter occurrence cuts, so `n` delimiters yield `n + 1` (possibly empty)
pieces.  The `+` in the source regexes collapses delimiter runs, which only
removes empty pieces; both call sites filter empty pieces afterwards, so the
composed behaviour is identical. -/
def splitOnPred (p : Char → Bool) : Str → List Str
  | [] => [[]]
  | c :: cs =>
    if p c then [] :: splitOnPred p cs
    else
      match splitOnPred p cs with
      | [] => [[c]]
      | s :: ss => (c :: s) :: ss

/-- Maximal runs of characters satisfying `p`, via an explicit accumulator:
an independent formulation of splitting used to characterize the segmenters.
The accumulator carries the (reversed-free) run collected so far. -/
def runsAux (p : Char → Bool) : Str → Str → List Str
  | [], acc => if acc = [] then [] else [acc]
  | c :: cs, acc =>
    if p c then runsAux p cs (acc ++ [c])
    else if acc = [] then runsAux p cs []
    else acc :: runsAux p cs []

/-- Maximal runs of characters satisfying `p`, in order. -/
def maximalRuns (p : Char → Bool) (s : Str) : List Str := runsAux p s []

/-- Source `parseTokens`: trim, split on non-token characters, drop empties. -/
def parseTokens (text : Str) : List Str :=
  (splitOnPred (fun c => ¬ isTokenChar c) (trim text)).filter (fun s => s ≠ [])

/-- Source `parseSentences`: split on the delimiter class, trim each piece,
drop empties. -/
def parseSentences (text : Str) : List Str :=
  ((splitOnPred isSentenceDelim text).map trim).filter (fun s => s ≠ [])

/-- Model of `[...new Set(xs)]`: first occurrences, in order.  The `seen`
accumulator holds the elements already emitted. -/
def firstUniqAux {α : Type} [DecidableEq α] : List α → List α → List α
  | [], _ => []
  | a :: l, seen =>
    if a ∈ seen then firstUniqAux l seen else a :: firstUniqAux l (a :: seen)

/-- De-duplication keeping the first occurrence of each element, as the JS
`Set` iteration order does. -/
def firstUniq {α : Type} [DecidableEq α] (l : List α) : List α := firstUniqAux l []

/-- Source `filterTokens` specialised to an explicit (pre-lowercased) filler
set, which the constructor stores as `this.fillerWords`. -/
def filterTokensW (fillerWords : List Str) (tokens : List Str) : List Str :=
  tokens.filter (fun t => ¬ lowerStr t ∈ fillerWords)

/-- Source `parseTokensStemmed`: tokenize, optionally drop fillers, stem. -/
def parseTokensStemmedW (fillerWords : List Str) (text : Str) (filterFillers : Bool) :
    List Str :=
  (if filterFillers then filterTokensW fillerWords (parseTokens text)
   else parseTokens text).map (fun t => stem (lowerStr t))

/-! ### Association lists (JS `Map` with insert-or-overwrite and `get`) -/

/-- Lookup in a JS `Map` modelled as an association list. -/
def alGet? {β : Type} : List (Str × β) → Str → Option β
  | [], _ => none
  | p :: rest, k => if p.1 = k then some p.2 else alGet? rest k

/-- JS `Map.set`: overwrite in place if the key exists, else append. -/
def alSet {β : Type} : List (Str × β) → Str → β → List (Str × β)
  | [], k, v => [(k, v)]
  | p :: rest, k, v => if p.1 = k then (k, v) :: rest else p :: alSet rest k v

/-! ### TF and IDF -/

/-- Source `calculateTF`: relative frequency of `token` in `wordList`. -/
noncomputable def calculateTF (token : Str) (wordList : List Str) : ℝ :=
  if wordList = [] then 0
  else ((wordList.filter (fun w => w = token)).length : ℝ) / (wordList.length : ℝ)

/-- The document frequency computed inside `calculateIDF`:
`documents.filter(doc => doc.includes(token)).length`. -/
def dfCount (token : Str) (documents : List (List Str)) : ℕ :=
  (documents.filter (fun doc => token ∈ doc)).length

/-- Source `calculateIDF`: smoothed inverse document frequency,
`ln((N+1)/(df+1)) + 1`, and `0` on an empty document list. -/
noncomputable def calculateIDF (token : Str) (documents : List (List Str)) : ℝ :=
  if documents = [] then 0
  else Real.log (((documents.length : ℝ) + 1) / ((dfCount token documents : ℝ) + 1)) + 1

/-- The IDF cache: stemmed token to cached IDF value. -/
abbrev IDFCache := List (Str × ℝ)

/-- Source `precomputeIDF`: seed the cache with every distinct stemmed
corpus token. -/
noncomputable def precomputeIDF (stemmedTokens : List Str)
    (corpusDocs : List (List Str)) : IDFCache :=
  (firstUniq stemmedTokens).map (fun t => (t, calculateIDF t corpusDocs))

/-! ### Co-occurrence matrix -/

/-- Inner map of the co-occurrence matrix: co-token to count. -/
abbrev Inner := List (Str × ℕ)

/-- The nested-map co-occurrence matrix. -/
abbrev CoMatrix := List (Str × Inner)

/-- The inner-loop body of `buildCoOccurrenceMatrix`:
`matrix.get(word1).set(word2, (matrix.get(word1).get(word2) || 0) + 1)`,
with the in-place mutation of the nested `Map` expressed as re-insertion. -/
def coBump (m : CoMatrix) (word1 word2 : Str) : CoMatrix :=
  let inner := (alGet? m word1).getD []
  alSet m word1 (alSet inner word2 ((alGet? inner word2).getD 0 + 1))

/-- The outer-loop guard of `buildCoOccurrenceMatrix`:
`if (!matrix.has(word1)) matrix.set(word1, new Map())`. -/
def ensureKey (m : CoMatrix) (word1 : Str) : CoMatrix :=
  if (alGet? m word1).isSome then m else alSet m word1 []

/-- The body of `buildCoOccurrenceMatrix` for one sentence: the double loop
over indices of the de-duplicated token list, including the creation of an
empty inner map for each outer token before its inner loop runs. -/
def processDoc (M : CoMatrix) (uniq : List Str) : CoMatrix :=
  (List.range uniq.length).foldl (fun m i =>
    (List.range uniq.length).foldl (fun m2 j =>
      if i ≠ j then coBump m2 (uniq.getD i []) (uniq.getD j []) else m2)
      (ensureKey m (uniq.getD i []))) M

/-- Source `buildCoOccurrenceMatrix`: fold `processDoc` over the stemmed
corpus documents, de-duplicating each document first. -/
def buildCoOccurrenceMatrix (corpusDocs : List (List Str)) : CoMatrix :=
  corpusDocs.foldl (fun M doc => processDoc M (firstUniq doc)) []

/-- Observation of the matrix as in `getCoOccurrenceCount`:
`matrix.get(a)?.get(b) || 0`. -/
def coCount (M : CoMatrix) (a b : Str) : ℕ :=
  (alGet? ((alGet? M a).getD []) b).getD 0

/-! ### The model -/

/-- The `NarrowMindModel` instance state after construction.  `loadFillerWords`
performs file I/O and is an external collaborator: the (already lowercased)
filler set enters `mkModel` as a parameter. -/
structure Model where
  rawData : Str
  tokens : List Str
  sentences : List Str
  fillerWords : List Str
  filteredTokens : List Str
  corpusDocs : List (List Str)
  stemmedTokens : List Str
  idfCache : IDFCache
  coOccurrenceMatrix : CoMatrix

/-- The constructor of `NarrowMindModel`, field by field in source order. -/
noncomputable def mkModel (data : Str) (fillers : List Str) : Model :=
  let tokens := parseTokens data
  let sentences := parseSentences data
  let fillerWords := fillers.map lowerStr
  let filteredTokens := filterTokensW fillerWords tokens
  let corpusDocs := sentences.map (fun s => parseTokensStemmedW fillerWords s false)
  let stemmedTokens := parseTokensStemmedW fillerWords data false
  let idfCache := precomputeIDF stemmedTokens corpusDocs
  let coMatrix := buildCoOccurrenceMatrix corpusDocs
  ⟨data, tokens, sentences, fillerWords, filteredTokens, corpusDocs,
   stemmedTokens, idfCache, coMatrix⟩

/-- Source `getIDF` with the cache state passed explicitly: the returned pair
is (value, cache after the call).  A miss computes against the fixed
`corpusDocs` and inserts. -/
noncomputable def getIDFst (m : Model) (cache : IDFCache) (token : Str) :
    ℝ × IDFCache :=
  match alGet? cache token with
  | some v => (v, cache)
  | none =>
    let idf := calculateIDF token m.corpusDocs
    (idf, alSet cache token idf)

/-- A cache is coherent with a document list when every entry holds exactly
the eagerly computed IDF of its key.  The constructed cache is coherent and
every `getIDF` step preserves coherence. -/
def CoherentCache (corpusDocs : List (List Str)) (cache : IDFCache) : Prop :=
  ∀ p ∈ cache, p.2 = calculateIDF p.1 corpusDocs

/-- The value `getIDF` returns against the model's constructed cache.  The
cache mutation only ever inserts the freshly computed
`calculateIDF token corpusDocs`, which any later lookup reproduces, so the
value observed by the similarity pipeline is this pure function of the
model; the stateful behaviour itself is analysed through `getIDFst`. -/
noncomputable def getIDFval (m : Model) (token : Str) : ℝ :=
  match alGet? m.idfCache token with
  | some v => v
  | none => calculateIDF token m.corpusDocs

/-! ### Character similarity -/

/-- The classic LCS dynamic-programming table of
`longestCommonSubsequence`: `lcsTable s t i j` is `dp[i][j]`, the LCS length
of the first `i` characters of `s` and the first `j` characters of `t`. -/
def lcsTable (s t : Str) : ℕ → ℕ → ℕ
  | 0, _ => 0
  | _ + 1, 0 => 0
  | i + 1, j + 1 =>
    if s.getD i ' ' = t.getD j ' ' then lcsTable s t i j + 1
    else max (lcsTable s t i (j + 1)) (lcsTable s t (i + 1) j)
  termination_by i j => (i, j)

/-- Source `longestCommonSubsequence`: the full-table entry `dp[m][n]`. -/
def longestCommonSubsequence (s t : Str) : ℕ := lcsTable s t s.length t.length

/-- Source `calculateCharacterSimilarity`: falsy guard, exact-equality
shortcut, then the lowercased LCS ratio. -/
noncomputable def calculateCharacterSimilarity (str1 str2 : Str) : ℝ :=
  if str1 = [] ∨ str2 = [] then 0
  else if str1 = str2 then 1
  else
    let s1 := lowerStr str1
    let s2 := lowerStr str2
    let lcsLength := longestCommonSubsequence s1 s2
    let maxLength := max s1.length s2.length
    if maxLength = 0 then 1 else (lcsLength : ℝ) / (maxLength : ℝ)

/-! ### TF-IDF cosine similarity -/

/-- Source `calculateTFIDFSimilarity`: stemmed token vectors over the stable
union vocabulary, then cosine similarity with zero-magnitude guard. -/
noncomputable def calculateTFIDFSimilarity (m : Model) (sentence1 sentence2 : Str)
    (filterFillers : Bool) : ℝ :=
  let words1 := parseTokensStemmedW m.fillerWords sentence1 filterFillers
  let words2 := parseTokensStemmedW m.fillerWords sentence2 filterFillers
  if words1 = [] ∨ words2 = [] then 0
  else
    let vocab := firstUniq (words1 ++ words2)
    let vec1 := vocab.map (fun t => calculateTF t words1 * getIDFval m t)
    let vec2 := vocab.map (fun t => calculateTF t words2 * getIDFval m t)
    let dot := (List.zipWith (fun a b => a * b) vec1 vec2).sum
    let mag1 := Real.sqrt ((vec1.map (fun v => v * v)).sum)
    let mag2 := Real.sqrt ((vec2.map (fun v => v * v)).sum)
    if mag1 = 0 ∨ mag2 = 0 then 0 else dot / (mag1 * mag2)

/-! ### Co-occurrence scoring -/

/-- The `'jaccard'`/`'pmi'` method strings as a closed variant. -/
inductive CoMethod where
  | jaccard : CoMethod
  | pmi : CoMethod
deriving DecidableEq

/-- Source `getCoOccurrenceCount`: stem both words, then nested lookup. -/
def getCoOccurrenceCount (m : Model) (word1 word2 : Str) : ℕ :=
  coCount m.coOccurrenceMatrix (stem (lowerStr word1)) (stem (lowerStr word2))

/-- Source `calculateCoOccurrenceScore`: identical stems give 1, a zero
count gives 0, otherwise Jaccard over sentence-index sets or PMI with the
epsilon smoothing. -/
noncomputable def calculateCoOccurrenceScore (m : Model) (word1 word2 : Str)
    (method : CoMethod) : ℝ :=
  let stemmed1 := stem (lowerStr word1)
  let stemmed2 := stem (lowerStr word2)
  if stemmed1 = stemmed2 then 1
  else if getCoOccurrenceCount m stemmed1 stemmed2 = 0 then 0
  else
    match method with
    | CoMethod.jaccard =>
      let word1Sentences := (Finset.range m.corpusDocs.length).filter
        (fun i => stemmed1 ∈ m.corpusDocs.getD i [])
      let word2Sentences := (Finset.range m.corpusDocs.length).filter
        (fun i => stemmed2 ∈ m.corpusDocs.getD i [])
      let inter := word1Sentences ∩ word2Sentences
      let union := word1Sentences ∪ word2Sentences
      if union.card > 0 then (inter.card : ℝ) / (union.card : ℝ) else 0
    | CoMethod.pmi =>
      let totalSentences := m.corpusDocs.length
      let word1Count := (m.corpusDocs.filter (fun doc => stemmed1 ∈ doc)).length
      let word2Count := (m.corpusDocs.filter (fun doc => stemmed2 ∈ doc)).length
      let coOccurrenceCount := getCoOccurrenceCount m stemmed1 stemmed2
      if word1Count = 0 ∨ word2Count = 0 ∨ coOccurrenceCount = 0 then 0
      else
        let pxy := (coOccurrenceCount : ℝ) / (totalSentences : ℝ)
        let px := (word1Count : ℝ) / (totalSentences : ℝ)
        let py := (word2Count : ℝ) / (totalSentences : ℝ)
        Real.logb 2 ((pxy + 0.0001) / (px * py + 0.0001))

/-- Source `calculateCoOccurrenceSimilarity`: average pairwise score over
the cross product of the two de-duplicated token lists, with the PMI
variant clamped into [0,1]. -/
noncomputable def calculateCoOccurrenceSimilarity (m : Model) (sentence1 sentence2 : Str)
    (filterFillers : Bool) (method : CoMethod) : ℝ :=
  let words1 := parseTokensStemmedW m.fillerWords sentence1 filterFillers
  let words2 := parseTokensStemmedW m.fillerWords sentence2 filterFillers
  if words1 = [] ∨ words2 = [] then 0
  else
    let uniqueWords1 := firstUniq words1
    let uniqueWords2 := firstUniq words2
    let totalScore := (uniqueWords1.map (fun w1 =>
      (uniqueWords2.map (fun w2 => calculateCoOccurrenceScore m w1 w2 method)).sum)).sum
    let pairCount := uniqueWords1.length * uniqueWords2.length
    match method with
    | CoMethod.pmi =>
      max 0 (min 1 ((totalScore / (pairCount : ℝ) + 5) / 10))
    | CoMethod.jaccard =>
      if pairCount > 0 then totalScore / (pairCount : ℝ) else 0

/-! ### Combined similarity and ranking -/

/-- Source `calculateCombinedSimilarity`: weighted sum of TF-IDF and
character scores, plus the co-occurrence score when its weight is positive,
normalized by the total weight. -/
noncomputable def calculateCombinedSimilarity (m : Model) (sentence1 sentence2 : Str)
    (tfidfWeight charWeight : ℝ) (filterFillers : Bool)
    (coOccurrenceWeight : ℝ) (method : CoMethod) : ℝ :=
  let tfidfScore := calculateTFIDFSimilarity m sentence1 sentence2 filterFillers
  let charScore := calculateCharacterSimilarity sentence1 sentence2
  let totalWeight0 := tfidfWeight + charWeight
  let score0 := tfidfScore * tfidfWeight + charScore * charWeight
  let score := if coOccurrenceWeight > 0 then
      score0 + calculateCoOccurrenceSimilarity m sentence1 sentence2 filterFillers method
        * coOccurrenceWeight
    else score0
  let totalWeight := if coOccurrenceWeight > 0 then totalWeight0 + coOccurrenceWeight
    else totalWeight0
  if totalWeight > 0 then score / totalWeight else 0

/-- The descending-score comparison used by the ranker's sort. -/
def scoreGE (a b : Str × ℝ) : Prop := b.2 ≤ a.2

noncomputable instance : DecidableRel scoreGE :=
  fun a b => inferInstanceAs (Decidable (b.2 ≤ a.2))

instance : IsTotal (Str × ℝ) scoreGE := ⟨fun a b => le_total b.2 a.2⟩

instance : IsTrans (Str × ℝ) scoreGE :=
  ⟨fun _ _ _ hab hbc => le_trans hbc hab⟩

/-- Source `rankSentences`: score every corpus sentence against the query,
keep strictly positive scores, sort descending (JS stable sort modelled by
insertion sort on `scoreGE`), then apply the `topN` cut. -/
noncomputable def rankSentences (m : Model) (query : Str) (topN : ℕ)
    (tfidfWeight charWeight : ℝ) (filterWords : Bool)
    (coOccurrenceWeight : ℝ) (method : CoMethod) : List (Str × ℝ) :=
  if query = [] then []
  else
    let sentenceRanks := m.sentences.filterMap (fun sentence =>
      let similarity := calculateCombinedSimilarity m query sentence
        tfidfWeight charWeight filterWords coOccurrenceWeight method
      if 0 < similarity then some (sentence, similarity) else none)
    let sorted := sentenceRanks.insertionSort scoreGE
    if topN > 0 then sorted.take topN else sorted

/-! ## Basic lemmas on the container models -/

theorem alGet?_alSet_self {β : Type} (l : List (Str × β)) (k : Str) (v : β) :
    alGet? (alSet l k v) k = some v := by
  induction l with
  | nil => simp [alSet, alGet?]
  | cons p rest ih =>
    by_cases h : p.1 = k
    · simp [alSet, h, alGet?]
    · simp [alSet, h, alGet?, ih]

theorem alGet?_alSet_ne {β : Type} (l : List (Str × β)) (k k' : Str) (v : β)
    (h : k' ≠ k) : alGet? (alSet l k v) k' = alGet? l k' := by
  have hk : ¬ (k = k') := fun hkk => h hkk.symm
  induction l with
  | nil => simp [alSet, alGet?, hk]
  | cons p rest ih =>
    by_cases hp : p.1 = k
    · have hp' : ¬ (p.1 = k') := by rw [hp]; exact hk
      simp [alSet, hp, alGet?, hk, hp']
    · by_cases hp' : p.1 = k'
      · simp [alSet, alGet?, hp', hk, h]
      · simp [alSet, hp, alGet?, hp', ih]

theorem alGet?_mem {β : Type} {l : List (Str × β)} {k : Str} {v : β}
    (h : alGet? l k = some v) : (k, v) ∈ l := by
  induction l with
  | nil => simp [alGet?] at h
  | cons p rest ih =>
    obtain ⟨a, b⟩ := p
    simp only [alGet?] at h
    by_cases hp : a = k
    · rw [if_pos hp] at h
      have hb : b = v := Option.some.inj h
      subst hb
      subst hp
      exact List.mem_cons_self _ _
    · rw [if_neg hp] at h
      exact List.mem_cons_of_mem _ (ih h)

theorem mem_firstUniqAux {α : Type} [DecidableEq α] (l seen : List α) (x : α) :
    x ∈ firstUniqAux l seen ↔ x ∈ l ∧ x ∉ seen := by
  induction l generalizing seen with
  | nil => simp [firstUniqAux]
  | cons a l ih =>
    by_cases ha : a ∈ seen
    · rw [firstUniqAux, if_pos ha, ih]
      constructor
      · rintro ⟨hx, hns⟩
        exact ⟨List.mem_cons_of_mem _ hx, hns⟩
      · rintro ⟨hx, hns⟩
        rcases List.mem_cons.mp hx with rfl | hx
        · exact absurd ha hns
        · exact ⟨hx, hns⟩
    · rw [firstUniqAux, if_neg ha]
      simp only [List.mem_cons, ih]
      constructor
      · rintro (rfl | ⟨hx, hns⟩)
        · exact ⟨Or.inl rfl, ha⟩
        · refine ⟨Or.inr hx, fun hs => hns (Or.inr hs)⟩
      · rintro ⟨hxa | hx, hns⟩
        · exact Or.inl hxa
        · by_cases hxa : x = a
          · exact Or.inl hxa
          · refine Or.inr ⟨hx, fun hs => ?_⟩
            rcases hs with h | h
            · exact hxa h
            · exact hns h

theorem mem_firstUniq {α : Type} [DecidableEq α] (l : List α) (x : α) :
    x ∈ firstUniq l ↔ x ∈ l := by
  simp [firstUniq, mem_firstUniqAux]

theorem nodup_firstUniqAux {α : Type} [DecidableEq α] (l seen : List α) :
    (firstUniqAux l seen).Nodup := by
  induction l generalizing seen with
  | nil => simp [firstUniqAux]
  | cons a l ih =>
    by_cases ha : a ∈ seen
    · simpa [firstUniqAux, if_pos ha] using ih seen
    · simp only [firstUniqAux, if_neg ha, List.nodup_cons]
      refine ⟨fun hmem => ?_, ih (a :: seen)⟩
      exact ((mem_firstUniqAux l (a :: seen) a).mp hmem).2 (List.mem_cons_self a seen)

theorem nodup_firstUniq {α : Type} [DecidableEq α] (l : List α) :
    (firstUniq l).Nodup := nodup_firstUniqAux l []

/-! ## Basic lemmas on TF and IDF -/

theorem calculateTF_nonneg (token : Str) (wordList : List Str) :
    0 ≤ calculateTF token wordList := by
  unfold calculateTF
  split
  · exact le_refl 0
  · positivity

theorem calculateTF_pos {token : Str} {wordList : List Str}
    (hw : wordList ≠ []) (hmem : token ∈ wordList) :
    0 < calculateTF token wordList := by
  unfold calculateTF
  rw [if_neg hw]
  have hfl : token ∈ wordList.filter (fun w => w = token) := by
    simp [List.mem_filter, hmem]
  have h1 : 0 < (wordList.filter (fun w => w = token)).length :=
    List.length_pos.mpr (List.ne_nil_of_mem hfl)
  have h2 : 0 < wordList.length := List.length_pos.mpr hw
  exact div_pos (by exact_mod_cast h1) (by exact_mod_cast h2)

theorem calculateIDF_ge_one {documents : List (List Str)} (token : Str)
    (hd : documents ≠ []) : 1 ≤ calculateIDF token documents := by
  unfold calculateIDF
  rw [if_neg hd]
  have hdf : dfCount token documents ≤ documents.length :=
    List.length_filter_le _ _
  have hcast : (dfCount token documents : ℝ) ≤ (documents.length : ℝ) :=
    Nat.cast_le.mpr hdf
  have harg : (1 : ℝ) ≤ ((documents.length : ℝ) + 1) / ((dfCount token documents : ℝ) + 1) := by
    rw [le_div_iff₀ (by positivity)]
    linarith
  have := Real.log_nonneg harg
  linarith

theorem calculateIDF_nonneg (token : Str) (documents : List (List Str)) :
    0 ≤ calculateIDF token documents := by
  by_cases hd : documents = []
  · simp [calculateIDF, hd]
  · linarith [calculateIDF_ge_one token hd]

theorem mkModel_coherent (data : Str) (fillers : List Str) :
    CoherentCache (mkModel data fillers).corpusDocs (mkModel data fillers).idfCache := by
  intro p hp
  simp only [mkModel, precomputeIDF] at hp ⊢
  obtain ⟨t, _, rfl⟩ := List.mem_map.mp hp
  rfl

theorem getIDFval_eq_of_coherent {m : Model}
    (hc : CoherentCache m.corpusDocs m.idfCache) (t : Str) :
    getIDFval m t = calculateIDF t m.corpusDocs := by
  unfold getIDFval
  cases hg : alGet? m.idfCache t with
  | none => rfl
  | some v => exact hc (t, v) (alGet?_mem hg)

theorem getIDFval_nonneg {m : Model}
    (hc : CoherentCache m.corpusDocs m.idfCache) (t : Str) :
    0 ≤ getIDFval m t := by
  rw [getIDFval_eq_of_coherent hc]
  exact calculateIDF_nonneg t m.corpusDocs

theorem zipWith_map_same {α : Type} (f : ℝ → ℝ → ℝ) (g h : α → ℝ) (l : List α) :
    List.zipWith f (l.map g) (l.map h) = l.map (fun x => f (g x) (h x)) := by
  induction l with
  | nil => rfl
  | cons a l ih => simp [ih]

theorem firstUniq_append_perm (wa wb : List Str) :
    List.Perm (firstUniq (wa ++ wb)) (firstUniq (wb ++ wa)) := by
  refine (List.perm_ext_iff_of_nodup (nodup_firstUniq _) (nodup_firstUniq _)).mpr ?_
  intro a
  simp only [mem_firstUniq, List.mem_append]
  exact or_comm

/-! ## C3: stemmer examples -/

/-- C3: the claim lists the spec's stemmer examples.  Three hold
(`horses` by the `es`-drop rule, `flies → fly`, `has → hav`), but
`stem("running")` returns `"runn"`, not the claimed `"run"`: the
consonant-doubling rule fires only when the character two back is *not* a
vowel, and in `runn` that character is the vowel `u`.  This contradicts the
source's own comment above the rule, which gives `running -> run` as its
example, so the code is the bug; this theorem evaluates the code at the
failing input and at the three conforming examples. -/
theorem stem_running_doubling_bug :
    stem (chars "running") = chars "runn" ∧
    stem (chars "running") ≠ chars "run" ∧
    stem (chars "horses") = chars "hors" ∧
    stem (chars "flies") = chars "fly" ∧
    stem (chars "has") = chars "hav" :=
  ⟨by decide, by decide, by decide, by decide, by decide⟩

/-! ## C6: character similarity -/

theorem charSim_self (s : Str) (hs : s ≠ []) :
    calculateCharacterSimilarity s s = 1 := by
  unfold calculateCharacterSimilarity
  rw [if_neg (by simp [hs]), if_pos rfl]

/-- C6 counterexample: the claim asserts `characterSimilarity(s, s) == 1`
for every string `s`, but the source's falsy guard fires first on the empty
string, so `characterSimilarity("", "") = 0`, not `1`. -/
theorem characterSimilarity_empty_self_counterexample :
    calculateCharacterSimilarity (chars "") (chars "") = 0 ∧
    ¬ calculateCharacterSimilarity (chars "") (chars "") = 1 := by
  constructor
  · simp [calculateCharacterSimilarity, chars]
  · simp [calculateCharacterSimilarity, chars]

/-- C6 (amended): for every NON-EMPTY string `s`, `characterSimilarity(s, s)
= 1`; when either input is empty the result is `0`; and for unequal
non-empty inputs the result is the LCS length over the lowercased strings
divided by the larger lowercased length. -/
theorem characterSimilarity_spec (s1 s2 : Str) (h1 : s1 ≠ []) (h2 : s2 ≠ [])
    (hne : s1 ≠ s2) :
    calculateCharacterSimilarity s1 s1 = 1 ∧
    calculateCharacterSimilarity [] s2 = 0 ∧
    calculateCharacterSimilarity s1 [] = 0 ∧
    calculateCharacterSimilarity s1 s2 =
      (longestCommonSubsequence (lowerStr s1) (lowerStr s2) : ℝ) /
        ((max (lowerStr s1).length (lowerStr s2).length : ℕ) : ℝ) := by
  refine ⟨charSim_self s1 h1, ?_, ?_, ?_⟩
  · unfold calculateCharacterSimilarity
    rw [if_pos (Or.inl rfl)]
  · unfold calculateCharacterSimilarity
    rw [if_pos (Or.inr rfl)]
  · unfold calculateCharacterSimilarity
    rw [if_neg (by simp [h1, h2]), if_neg hne]
    have hlen : (lowerStr s1).length ≠ 0 := by
      simp [lowerStr, List.length_eq_zero, h1]
    rw [if_neg (by simp [hlen])]

/-- C6 witness: the amended specification applied at the concrete inputs
`"ab"` and `"x"`. -/
theorem characterSimilarity_spec_witness :
    calculateCharacterSimilarity (chars "ab") (chars "ab") = 1 ∧
    calculateCharacterSimilarity [] (chars "x") = 0 ∧
    calculateCharacterSimilarity (chars "ab") [] = 0 ∧
    calculateCharacterSimilarity (chars "ab") (chars "x") =
      (longestCommonSubsequence (lowerStr (chars "ab")) (lowerStr (chars "x")) : ℝ) /
        ((max (lowerStr (chars "ab")).length (lowerStr (chars "x")).length : ℕ) : ℝ) :=
  characterSimilarity_spec (chars "ab") (chars "x") (by decide) (by decide) (by decide)

/-! ## C7: IDF formula and monotonicity -/

/-- C7 counterexample: with a single document containing both tokens, a
token occurring in every document and a token occurring in exactly one
document have the SAME document frequency, so the claimed strict inequality
fails. -/
theorem calculateIDF_strict_counterexample :
    (∀ d ∈ ([[chars "a", chars "b"]] : List (List Str)), chars "a" ∈ d) ∧
    dfCount (chars "b") [[chars "a", chars "b"]] = 1 ∧
    ([[chars "a", chars "b"]] : List (List Str)) ≠ [] ∧
    ¬ calculateIDF (chars "a") [[chars "a", chars "b"]] <
        calculateIDF (chars "b") [[chars "a", chars "b"]] := by
  refine ⟨by decide, by decide, by decide, ?_⟩
  have hda : dfCount (chars "a") [[chars "a", chars "b"]] = 1 := by decide
  have hdb : dfCount (chars "b") [[chars "a", chars "b"]] = 1 := by decide
  unfold calculateIDF
  rw [if_neg (by decide), if_neg (by decide), hda, hdb]
  exact lt_irrefl _

/-- C7 (amended): on a non-empty document list, `calculateIDF` returns
`ln((N+1)/(df+1)) + 1`; it is monotonically non-increasing in document
frequency; and a token in every document has strictly lower IDF than a
token in exactly one document PROVIDED there are at least two documents
(with a single document the two frequencies coincide). -/
theorem calculateIDF_monotone_spec (documents : List (List Str)) (t1 t2 : Str)
    (hd : documents ≠ []) :
    calculateIDF t1 documents =
      Real.log (((documents.length : ℝ) + 1) / ((dfCount t1 documents : ℝ) + 1)) + 1 ∧
    (dfCount t2 documents ≤ dfCount t1 documents →
      calculateIDF t1 documents ≤ calculateIDF t2 documents) ∧
    (2 ≤ documents.length → (∀ d ∈ documents, t1 ∈ d) → dfCount t2 documents = 1 →
      calculateIDF t1 documents < calculateIDF t2 documents) := by
  refine ⟨by rw [calculateIDF, if_neg hd], ?_, ?_⟩
  · intro hle
    unfold calculateIDF
    rw [if_neg hd, if_neg hd]
    have hx : ((documents.length : ℝ) + 1) / ((dfCount t1 documents : ℝ) + 1) ≤
        ((documents.length : ℝ) + 1) / ((dfCount t2 documents : ℝ) + 1) := by
      gcongr
    have hpos : (0 : ℝ) <
        ((documents.length : ℝ) + 1) / ((dfCount t1 documents : ℝ) + 1) := by
      positivity
    linarith [Real.log_le_log hpos hx]
  · intro hN hall hone
    unfold calculateIDF
    rw [if_neg hd, if_neg hd]
    have hd1 : dfCount t1 documents = documents.length := by
      unfold dfCount
      rw [List.filter_eq_self.mpr (fun d hdmem => by simpa using hall d hdmem)]
    rw [hd1, hone]
    have harg1 : ((documents.length : ℝ) + 1) / ((documents.length : ℝ) + 1) = 1 := by
      have : ((documents.length : ℝ) + 1) ≠ 0 := by positivity
      field_simp
    rw [harg1]
    have harg2 : (1 : ℝ) < ((documents.length : ℝ) + 1) / ((1 : ℕ) + 1 : ℝ) := by
      rw [lt_div_iff₀ (by norm_num)]
      have : (2 : ℝ) ≤ (documents.length : ℝ) := by exact_mod_cast hN
      push_cast
      linarith
    have := Real.log_pos harg2
    rw [Real.log_one]
    push_cast
    linarith

/-- C7 witness: the amended specification applied at a concrete two-document
corpus where `"a"` occurs in both documents and `"b"` in exactly one. -/
theorem calculateIDF_monotone_spec_witness :
    calculateIDF (chars "a") [[chars "a", chars "b"], [chars "a"]] <
      calculateIDF (chars "b") [[chars "a", chars "b"], [chars "a"]] :=
  (calculateIDF_monotone_spec [[chars "a", chars "b"], [chars "a"]]
      (chars "a") (chars "b") (by decide)).2.2 (by decide) (by decide) (by decide)

/-! ## Self-similarity of the TF-IDF score -/

theorem tfidf_self_eq_one {m : Model} (s : Str) (ff : Bool)
    (hc : CoherentCache m.corpusDocs m.idfCache)
    (hdocs : m.corpusDocs ≠ [])
    (hw : parseTokensStemmedW m.fillerWords s ff ≠ []) :
    calculateTFIDFSimilarity m s s ff = 1 := by
  unfold calculateTFIDFSimilarity
  simp only [zipWith_map_same, List.map_map, Function.comp_def]
  rw [if_neg (by simp [hw])]
  set w := parseTokensStemmedW m.fillerWords s ff with hwdef
  set S := ((firstUniq (w ++ w)).map
      (fun x => calculateTF x w * getIDFval m x *
        (calculateTF x w * getIDFval m x))).sum with hSdef
  have hnn : ∀ x ∈ (firstUniq (w ++ w)).map
      (fun x => calculateTF x w * getIDFval m x *
        (calculateTF x w * getIDFval m x)), 0 ≤ x := by
    intro x hx
    obtain ⟨t, _, rfl⟩ := List.mem_map.mp hx
    exact mul_self_nonneg _
  obtain ⟨t0, hw0⟩ : ∃ t0, t0 ∈ w := List.exists_mem_of_ne_nil w hw
  have ht0v : t0 ∈ firstUniq (w ++ w) :=
    (mem_firstUniq _ t0).mpr (List.mem_append.mpr (Or.inl hw0))
  have hTF : 0 < calculateTF t0 w := calculateTF_pos hw hw0
  have hidf : 0 < getIDFval m t0 := by
    rw [getIDFval_eq_of_coherent hc]
    linarith [calculateIDF_ge_one t0 hdocs]
  have hgt0 : 0 < calculateTF t0 w * getIDFval m t0 *
      (calculateTF t0 w * getIDFval m t0) := by positivity
  have hmem : calculateTF t0 w * getIDFval m t0 *
      (calculateTF t0 w * getIDFval m t0) ∈ (firstUniq (w ++ w)).map
      (fun x => calculateTF x w * getIDFval m x *
        (calculateTF x w * getIDFval m x)) :=
    List.mem_map.mpr ⟨t0, ht0v, rfl⟩
  have hS : 0 < S := lt_of_lt_of_le hgt0 (List.single_le_sum hnn _ hmem)
  have hsqrt : Real.sqrt S ≠ 0 := ne_of_gt (Real.sqrt_pos.mpr hS)
  rw [if_neg (by simp [hsqrt])]
  rw [Real.mul_self_sqrt (le_of_lt hS), div_self (ne_of_gt hS)]

/-! ## C5: TF-IDF self-similarity claim -/

/-- C5 counterexample: the claim asserts the self-similarity is 1 for every
NON-EMPTY sentence string; but a non-empty string with no letter/digit
characters (here `"!"`) tokenizes to the empty token list, so the
similarity's empty-words guard returns 0, not 1. -/
theorem tfidf_self_counterexample :
    (chars "!") ≠ [] ∧
    calculateTFIDFSimilarity (mkModel (chars "cat") []) (chars "!") (chars "!") false = 0 ∧
    (0 : ℝ) ≠ 1 := by
  refine ⟨by decide, ?_, by norm_num⟩
  unfold calculateTFIDFSimilarity
  rw [if_pos]
  left
  decide

/-- C5 (amended): for every constructed model with a non-empty corpus
document list, every sentence string whose (optionally filler-filtered)
stemmed token list is non-empty has TF-IDF self-similarity exactly 1. -/
theorem tfidf_self_similarity_one (data : Str) (fillers : List Str) (s : Str) (ff : Bool)
    (hdocs : (mkModel data fillers).corpusDocs ≠ [])
    (hw : parseTokensStemmedW (mkModel data fillers).fillerWords s ff ≠ []) :
    calculateTFIDFSimilarity (mkModel data fillers) s s ff = 1 :=
  tfidf_self_eq_one s ff (mkModel_coherent data fillers) hdocs hw

/-- C5 witness: the amended claim applied at the concrete one-sentence
corpus `"cat"` and the sentence `"cat"`. -/
theorem tfidf_self_similarity_one_witness :
    calculateTFIDFSimilarity (mkModel (chars "cat") []) (chars "cat") (chars "cat") false = 1 :=
  tfidf_self_similarity_one (chars "cat") [] (chars "cat") false (by decide) (by decide)

/-! ## C10: symmetry of TF-IDF cosine similarity -/

/-- C10: `calculateTFIDFSimilarity` is symmetric in its two sentence
arguments, for every model state, pair of strings and filler-filter
setting: swapping the arguments permutes the union vocabulary, and every
sum involved is invariant under that permutation. -/
theorem calculateTFIDFSimilarity_comm (m : Model) (s1 s2 : Str) (ff : Bool) :
    calculateTFIDFSimilarity m s1 s2 ff = calculateTFIDFSimilarity m s2 s1 ff := by
  unfold calculateTFIDFSimilarity
  simp only [zipWith_map_same, List.map_map]
  set wa := parseTokensStemmedW m.fillerWords s1 ff with hwa
  set wb := parseTokensStemmedW m.fillerWords s2 ff with hwb
  by_cases he : wa = [] ∨ wb = []
  · rw [if_pos he, if_pos (Or.symm he)]
  · rw [if_neg he, if_neg (fun h => he (Or.symm h))]
    have hsum : ∀ F : Str → ℝ,
        ((firstUniq (wb ++ wa)).map F).sum = ((firstUniq (wa ++ wb)).map F).sum :=
      fun F => (((firstUniq_append_perm wa wb).map F).sum_eq).symm
    have hfun : (fun x => calculateTF x wb * getIDFval m x *
        (calculateTF x wa * getIDFval m x)) =
        (fun x => calculateTF x wa * getIDFval m x *
          (calculateTF x wb * getIDFval m x)) :=
      funext fun x => mul_comm _ _
    simp only [hsum, hfun]
    exact if_congr or_comm rfl (by rw [mul_comm])

/-! ## C1: rank positivity and sortedness -/

/-- C1: for every model, query, cut and weight configuration, every pair
returned by `rankSentences` has a strictly positive score (zero scores are
excluded by the filter, not ranked last), and the returned list is sorted
by score in descending order. -/
theorem rankSentences_pos_sorted (m : Model) (query : Str) (topN : ℕ)
    (tw cw : ℝ) (fw : Bool) (cow : ℝ) (method : CoMethod) :
    (∀ p ∈ rankSentences m query topN tw cw fw cow method, 0 < p.2) ∧
    List.Sorted scoreGE (rankSentences m query topN tw cw fw cow method) := by
  unfold rankSentences
  by_cases hq : query = []
  · simp [hq]
  · rw [if_neg hq]
    simp only []
    set ranks := m.sentences.filterMap (fun sentence =>
      if 0 < calculateCombinedSimilarity m query sentence tw cw fw cow method then
        some (sentence, calculateCombinedSimilarity m query sentence tw cw fw cow method)
      else none) with hranks
    have hpos : ∀ p ∈ ranks, 0 < p.2 := by
      intro p hp
      rw [hranks] at hp
      obtain ⟨a, _, hfa⟩ := List.mem_filterMap.mp hp
      split_ifs at hfa with h
      obtain rfl := Option.some.inj hfa
      exact h
    constructor
    · intro p hp
      have hp' : p ∈ ranks.insertionSort scoreGE := by
        by_cases ht : topN > 0
        · rw [if_pos ht] at hp
          exact List.take_subset _ _ hp
        · rwa [if_neg ht] at hp
      exact hpos p ((List.perm_insertionSort scoreGE ranks).mem_iff.mp hp')
    · by_cases ht : topN > 0
      · rw [if_pos ht]
        exact List.Pairwise.sublist (List.take_sublist _ _)
          (List.sorted_insertionSort scoreGE ranks)
      · rw [if_neg ht]
        exact List.sorted_insertionSort scoreGE ranks

theorem combined_char_only_self (m : Model) (s : Str) (hs : s ≠ [])
    (ff : Bool) (method : CoMethod) :
    calculateCombinedSimilarity m s s 0 1 ff 0 method = 1 := by
  unfold calculateCombinedSimilarity
  rw [charSim_self s hs]
  norm_num

theorem rank_eval_simple :
    rankSentences (mkModel (chars "cat") []) (chars "cat") 0 0 1 false 0 CoMethod.jaccard =
      [(chars "cat", 1)] := by
  unfold rankSentences
  rw [if_neg (by decide)]
  have hs : (mkModel (chars "cat") []).sentences = [chars "cat"] := by decide
  rw [hs]
  simp only [List.filterMap]
  rw [combined_char_only_self _ _ (by decide)]
  norm_num [List.insertionSort, List.orderedInsert]

/-- C1 witness: the theorem applied to the one-sentence corpus `"cat"` with
the query `"cat"` and weights (0, 1), whose ranking is the single pair
(`"cat"`, 1). -/
theorem rankSentences_pos_sorted_witness :
    List.Sorted scoreGE [(chars "cat", (1 : ℝ))] ∧ (0 : ℝ) < 1 := by
  constructor
  · rw [← rank_eval_simple]
    exact (rankSentences_pos_sorted (mkModel (chars "cat") []) (chars "cat")
      0 0 1 false 0 CoMethod.jaccard).2
  · exact (rankSentences_pos_sorted (mkModel (chars "cat") []) (chars "cat")
      0 0 1 false 0 CoMethod.jaccard).1 (chars "cat", 1)
      (by rw [rank_eval_simple]; exact List.mem_singleton_self _)

/-! ## C2: default-weight scores lie in (0, 1] -/

theorem sum_map_eq_sum_range (f : Str → ℝ) (l : List Str) :
    (l.map f).sum = ∑ i in Finset.range l.length, f (l.getD i []) := by
  induction l with
  | nil => simp
  | cons a l ih =>
    rw [List.map_cons, List.sum_cons, ih, List.length_cons, Finset.sum_range_succ']
    simp only [List.getD_cons_succ, List.getD_cons_zero]
    rw [add_comm]

theorem cosine_core_le_one (l : List Str) (F G : Str → ℝ) :
    ((l.map (fun x => F x * G x)).sum /
      (Real.sqrt ((l.map (fun x => F x * F x)).sum) *
        Real.sqrt ((l.map (fun x => G x * G x)).sum))) ≤ 1 := by
  set A := (l.map (fun x => F x * F x)).sum with hA
  set B := (l.map (fun x => G x * G x)).sum with hB
  have hCS : (l.map (fun x => F x * G x)).sum ≤ Real.sqrt A * Real.sqrt B := by
    have hcs := Real.sum_mul_le_sqrt_mul_sqrt (Finset.range l.length)
      (fun i => F (l.getD i [])) (fun i => G (l.getD i []))
    simp only [pow_two] at hcs
    rw [hA, hB, sum_map_eq_sum_range, sum_map_eq_sum_range, sum_map_eq_sum_range]
    exact hcs
  rcases eq_or_lt_of_le (Real.sqrt_nonneg A) with hA0 | hA0
  · rw [← hA0, zero_mul, div_zero]
    norm_num
  · rcases eq_or_lt_of_le (Real.sqrt_nonneg B) with hB0 | hB0
    · rw [← hB0, mul_zero, div_zero]
      norm_num
    · rw [div_le_one (by positivity)]
      exact hCS

theorem tfidf_le_one (m : Model) (s1 s2 : Str) (ff : Bool) :
    calculateTFIDFSimilarity m s1 s2 ff ≤ 1 := by
  unfold calculateTFIDFSimilarity
  simp only [zipWith_map_same, List.map_map, Function.comp_def]
  split_ifs with h1 h2
  · norm_num
  · norm_num
  · exact cosine_core_le_one _
      (fun t => calculateTF t (parseTokensStemmedW m.fillerWords s1 ff) * getIDFval m t)
      (fun t => calculateTF t (parseTokensStemmedW m.fillerWords s2 ff) * getIDFval m t)

theorem lcsTable_le_min (s t : Str) :
    ∀ n i j, i + j ≤ n → lcsTable s t i j ≤ min i j := by
  intro n
  induction n with
  | zero =>
    intro i j hij
    obtain ⟨rfl, rfl⟩ : i = 0 ∧ j = 0 := by omega
    simp [lcsTable]
  | succ n ih =>
    intro i j hij
    match i, j with
    | 0, j => simp [lcsTable]
    | i + 1, 0 => simp [lcsTable]
    | i + 1, j + 1 =>
      rw [lcsTable]
      split
      · have h1 := ih i j (by omega)
        omega
      · have h1 := ih i (j + 1) (by omega)
        have h2 := ih (i + 1) j (by omega)
        omega

theorem longestCommonSubsequence_le (s t : Str) :
    longestCommonSubsequence s t ≤ min s.length t.length :=
  lcsTable_le_min s t (s.length + t.length) s.length t.length le_rfl

theorem charSim_le_one (s1 s2 : Str) : calculateCharacterSimilarity s1 s2 ≤ 1 := by
  unfold calculateCharacterSimilarity
  split_ifs with h1 h2
  · norm_num
  · norm_num
  · simp only []
    split_ifs with h3
    · norm_num
    · have hne1 : s1 ≠ [] := fun hs => h1 (Or.inl hs)
      have hlen1 : (lowerStr s1).length ≠ 0 := by
        simpa [lowerStr, List.length_eq_zero] using hne1
      have hlcs := longestCommonSubsequence_le (lowerStr s1) (lowerStr s2)
      have hle : longestCommonSubsequence (lowerStr s1) (lowerStr s2) ≤
          max (lowerStr s1).length (lowerStr s2).length := by omega
      have hmax0 : 0 < max (lowerStr s1).length (lowerStr s2).length := by omega
      rw [div_le_one (by exact_mod_cast hmax0)]
      exact_mod_cast hle

theorem combined_default_le_one (m : Model) (q s : Str) (ff : Bool) (method : CoMethod) :
    calculateCombinedSimilarity m q s 0.95 0.05 ff 0 method ≤ 1 := by
  unfold calculateCombinedSimilarity
  have ht := tfidf_le_one m q s ff
  have hc := charSim_le_one q s
  norm_num
  linarith

theorem rankSentences_mem_spec (m : Model) (query : Str) (topN : ℕ)
    (tw cw : ℝ) (fw : Bool) (cow : ℝ) (method : CoMethod) (p : Str × ℝ)
    (hp : p ∈ rankSentences m query topN tw cw fw cow method) :
    ∃ a, a ∈ m.sentences ∧
      p = (a, calculateCombinedSimilarity m query a tw cw fw cow method) := by
  unfold rankSentences at hp
  by_cases hq : query = []
  · rw [if_pos hq] at hp
    simp at hp
  · rw [if_neg hq] at hp
    simp only [] at hp
    have hp' : p ∈ (m.sentences.filterMap (fun sentence =>
        if 0 < calculateCombinedSimilarity m query sentence tw cw fw cow method then
          some (sentence, calculateCombinedSimilarity m query sentence tw cw fw cow method)
        else none)).insertionSort scoreGE := by
      by_cases ht : topN > 0
      · rw [if_pos ht] at hp
        exact List.take_subset _ _ hp
      · rwa [if_neg ht] at hp
    have hp2 := (List.perm_insertionSort scoreGE _).mem_iff.mp hp'
    obtain ⟨a, ha, hfa⟩ := List.mem_filterMap.mp hp2
    split_ifs at hfa with h
    obtain rfl := Option.some.inj hfa
    exact ⟨a, ha, rfl⟩

/-- C2: under the default weight configuration (tfidfWeight `0.95`,
charWeight `0.05`, coOccurrenceWeight `0`), every score returned by
`rankSentences` lies in the half-open interval (0, 1]: the TF-IDF cosine is
bounded by 1 (Cauchy-Schwarz), the character LCS ratio is bounded by 1, the
weighted combination divided by the total weight stays at most 1, and the
strict-positivity filter bounds the score below by 0. -/
theorem rankSentences_default_unit_interval (m : Model) (query : Str) (topN : ℕ)
    (ff : Bool) (method : CoMethod) (p : Str × ℝ)
    (hp : p ∈ rankSentences m query topN 0.95 0.05 ff 0 method) :
    0 < p.2 ∧ p.2 ≤ 1 := by
  refine ⟨(rankSentences_pos_sorted m query topN 0.95 0.05 ff 0 method).1 p hp, ?_⟩
  obtain ⟨a, _, rfl⟩ := rankSentences_mem_spec m query topN 0.95 0.05 ff 0 method p hp
  exact combined_default_le_one m query a ff method

theorem combined_default_self_eval :
    calculateCombinedSimilarity (mkModel (chars "cat") []) (chars "cat") (chars "cat")
      0.95 0.05 false 0 CoMethod.jaccard = 1 := by
  unfold calculateCombinedSimilarity
  rw [tfidf_self_eq_one (chars "cat") false (mkModel_coherent (chars "cat") [])
      (by decide) (by decide),
    charSim_self _ (by decide)]
  norm_num

theorem rank_eval_default :
    rankSentences (mkModel (chars "cat") []) (chars "cat") 0 0.95 0.05 false 0
      CoMethod.jaccard = [(chars "cat", 1)] := by
  unfold rankSentences
  rw [if_neg (by decide)]
  have hs : (mkModel (chars "cat") []).sentences = [chars "cat"] := by decide
  rw [hs]
  simp only [List.filterMap]
  rw [combined_default_self_eval]
  norm_num [List.insertionSort, List.orderedInsert]

/-- C2 witness: the theorem applied to the one-sentence corpus `"cat"` with
the query `"cat"` under the default weights, whose ranking is the single
pair (`"cat"`, 1). -/
theorem rankSentences_default_unit_interval_witness : (0 : ℝ) < 1 ∧ (1 : ℝ) ≤ 1 :=
  rankSentences_default_unit_interval (mkModel (chars "cat") []) (chars "cat") 0
    false CoMethod.jaccard (chars "cat", 1)
    (by rw [rank_eval_default]; exact List.mem_singleton_self _)

/-! ## C9: the lazy IDF cache agrees with the eager path -/

theorem mem_alSet {β : Type} {l : List (Str × β)} {k : Str} {v : β} {p : Str × β}
    (h : p ∈ alSet l k v) : p = (k, v) ∨ p ∈ l := by
  induction l with
  | nil => simpa [alSet] using h
  | cons q rest ih =>
    by_cases hq : q.1 = k
    · rw [alSet, if_pos hq] at h
      rcases List.mem_cons.mp h with h | h
      · exact Or.inl h
      · exact Or.inr (List.mem_cons_of_mem _ h)
    · rw [alSet, if_neg hq] at h
      rcases List.mem_cons.mp h with h | h
      · exact Or.inr (h ▸ List.mem_cons_self _ _)
      · rcases ih h with h' | h'
        · exact Or.inl h'
        · exact Or.inr (List.mem_cons_of_mem _ h')

theorem precomputeIDF_coherent (stemmedTokens : List Str)
    (corpusDocs : List (List Str)) :
    CoherentCache corpusDocs (precomputeIDF stemmedTokens corpusDocs) := by
  intro p hp
  unfold precomputeIDF at hp
  obtain ⟨t, _, rfl⟩ := List.mem_map.mp hp
  rfl

/-- C9: against a coherent cache (which the construction-time
`precomputeIDF` produces), `getIDF` (i) returns on a miss exactly the value
the eager precomputation would have assigned for that token against the
same fixed `corpusDocs`, (ii) leaves the cache coherent, (iii) is
append-only — every existing entry survives unchanged — and (iv) returns a
cached value unchanged on a hit; moreover the eager seed itself maps every
key to `calculateIDF` of that key. -/
theorem getIDF_cache_spec (m : Model) (cache : IDFCache) (token : Str)
    (hc : CoherentCache m.corpusDocs cache) :
    (getIDFst m cache token).1 = calculateIDF token m.corpusDocs ∧
    CoherentCache m.corpusDocs (getIDFst m cache token).2 ∧
    (∀ k v, alGet? cache k = some v → alGet? (getIDFst m cache token).2 k = some v) ∧
    (∀ k v, alGet? cache k = some v → (getIDFst m cache k).1 = v) ∧
    CoherentCache m.corpusDocs (precomputeIDF m.stemmedTokens m.corpusDocs) := by
  refine ⟨?_, ?_, ?_, ?_, precomputeIDF_coherent _ _⟩
  · unfold getIDFst
    cases hg : alGet? cache token with
    | none => rfl
    | some v => exact hc (token, v) (alGet?_mem hg)
  · unfold getIDFst
    cases hg : alGet? cache token with
    | none =>
      intro p hp
      rcases mem_alSet hp with rfl | hp'
      · rfl
      · exact hc p hp'
    | some v => exact hc
  · intro k v hk
    unfold getIDFst
    cases hg : alGet? cache token with
    | none =>
      have hne : k ≠ token := by
        intro h
        rw [h, hg] at hk
        exact Option.noConfusion hk
      simpa [alGet?_alSet_ne cache token k _ hne] using hk
    | some w => exact hk
  · intro k v hk
    unfold getIDFst
    rw [hk]

/-- C9 witness: the theorem applied to the constructed model for the corpus
`"cat"` and the token `"dog"`, which is absent from the seeded cache. -/
theorem getIDF_cache_spec_witness :
    (getIDFst (mkModel (chars "cat") []) (mkModel (chars "cat") []).idfCache
      (chars "dog")).1 = calculateIDF (chars "dog") (mkModel (chars "cat") []).corpusDocs :=
  (getIDF_cache_spec (mkModel (chars "cat") []) (mkModel (chars "cat") []).idfCache
    (chars "dog") (mkModel_coherent (chars "cat") [])).1

/-! ## C4: sentence segmentation -/

theorem splitOnPred_ne_nil (q : Char → Bool) (text : Str) :
    splitOnPred q text ≠ [] := by
  cases text with
  | nil => simp [splitOnPred]
  | cons c cs =>
    rw [splitOnPred]
    by_cases hq : q c
    · simp [hq]
    · rw [if_neg hq]
      cases splitOnPred q cs <;> simp

theorem runsAux_splitOnPred (q : Char → Bool) (text : Str) :
    ∀ acc s ss, splitOnPred q text = s :: ss →
      runsAux (fun c => ¬ q c) text acc =
        ((acc ++ s) :: ss).filter (fun r => r ≠ []) := by
  induction text with
  | nil =>
    intro acc s ss hsplit
    rw [splitOnPred] at hsplit
    injection hsplit with h1 h2
    subst h1
    subst h2
    by_cases hacc : acc = []
    · simp [runsAux, hacc]
    · simp [runsAux, hacc]
  | cons c cs ih =>
    intro acc s ss hsplit
    obtain ⟨s', ss', hsplit'⟩ := List.exists_cons_of_ne_nil (splitOnPred_ne_nil q cs)
    rw [splitOnPred] at hsplit
    by_cases hq : q c
    · rw [if_pos hq] at hsplit
      injection hsplit with h1 h2
      subst h1
      subst h2
      have hrec := ih [] s' ss' hsplit'
      simp only [List.nil_append] at hrec
      rw [runsAux, hsplit', if_neg (by simp [hq])]
      by_cases hacc : acc = []
      · subst hacc
        rw [if_pos rfl, hrec]
        conv_rhs => rw [List.nil_append, List.filter_cons]
        rw [if_neg (by simp)]
      · rw [if_neg hacc, hrec]
        conv_rhs => rw [List.append_nil, List.filter_cons]
        rw [if_pos (by simp [hacc])]
    · rw [if_neg hq, hsplit'] at hsplit
      injection hsplit with h1 h2
      subst h1
      subst h2
      rw [runsAux, if_pos (by simp [hq]), ih (acc ++ [c]) s' ss' hsplit',
        List.append_assoc, List.singleton_append]

theorem maximalRuns_eq_splitOnPred (q : Char → Bool) (text : Str) :
    maximalRuns (fun c => ¬ q c) text = (splitOnPred q text).filter (fun r => r ≠ []) := by
  obtain ⟨s, ss, hs⟩ := List.exists_cons_of_ne_nil (splitOnPred_ne_nil q text)
  rw [maximalRuns, runsAux_splitOnPred q text [] s ss hs, hs]
  simp

theorem trim_nil : trim [] = [] := rfl

theorem filter_map_trim_filter (L : List Str) :
    (((L.filter (fun s => s ≠ [])).map trim).filter (fun s => s ≠ [])) =
      ((L.map trim).filter (fun s => s ≠ [])) := by
  induction L with
  | nil => rfl
  | cons a L ih =>
    by_cases ha : a = []
    · subst ha
      calc ((((([] : Str) :: L).filter (fun s => s ≠ [])).map trim).filter
            (fun s => s ≠ []))
          = (((L.filter (fun s => s ≠ [])).map trim).filter (fun s => s ≠ [])) := by
            rw [List.filter_cons, if_neg (by simp)]
        _ = ((L.map trim).filter (fun s => s ≠ [])) := ih
        _ = (((([] : Str) :: L).map trim).filter (fun s => s ≠ [])) := by
            rw [List.map_cons, trim_nil, List.filter_cons, if_neg (by simp)]
    · rw [List.filter_cons, if_pos (by simp [ha]), List.map_cons, List.map_cons,
        List.filter_cons, List.filter_cons, ih]

/-- C4 counterexample: the claim lists the single-quote/apostrophe character
as a sentence delimiter, but the source regex class contains only `.`, `!`,
`?`, `,`, `"` (four times), `:`, `;` and newline: `"a'b"` stays one
sentence instead of splitting at the apostrophe. -/
theorem parseSentences_apostrophe_counterexample :
    parseSentences (chars "a'b") = [chars "a'b"] ∧
    parseSentences (chars "a'b") ≠ [chars "a", chars "b"] :=
  ⟨by decide, by decide⟩

/-- C4 (amended): `parseSentences` splits text into sentences exactly at
runs of one or more characters from the delimiter set
`. ! ? , " : ; newline` (WITHOUT the apostrophe — the four double-quote
bytes of the source regex collapse to the single `"`), each run collapsing
to one boundary, with results trimmed, empty pieces discarded and corpus
order preserved: it equals the maximal-runs characterization, and the
delimiter predicate is exactly that eight-character set. -/
theorem parseSentences_spec (text : Str) :
    parseSentences text =
      ((maximalRuns (fun c => ¬ isSentenceDelim c) text).map trim).filter
        (fun s => s ≠ []) ∧
    (∀ c : Char, isSentenceDelim c = true ↔ c ∈ chars ".!?,\":;\n") := by
  constructor
  · rw [maximalRuns_eq_splitOnPred isSentenceDelim text, filter_map_trim_filter]
    rfl
  · intro c
    simp [isSentenceDelim]

/-! ## C8: co-occurrence matrix symmetry and self-pair freedom -/

theorem coCount_coBump (m : CoMatrix) (w1 w2 a b : Str) :
    coCount (coBump m w1 w2) a b =
      if a = w1 ∧ b = w2 then coCount m a b + 1 else coCount m a b := by
  unfold coBump coCount
  by_cases ha : a = w1
  · subst ha
    rw [alGet?_alSet_self]
    by_cases hb : b = w2
    · subst hb
      rw [if_pos ⟨rfl, rfl⟩]
      simp [alGet?_alSet_self]
    · rw [if_neg (by tauto)]
      simp [alGet?_alSet_ne _ _ _ _ hb]
  · rw [if_neg (by tauto), alGet?_alSet_ne _ _ _ _ ha]

theorem coCount_ensureKey (m : CoMatrix) (w a b : Str) :
    coCount (ensureKey m w) a b = coCount m a b := by
  unfold ensureKey coCount
  by_cases hs : (alGet? m w).isSome
  · rw [if_pos hs]
  · rw [if_neg hs]
    by_cases ha : a = w
    · subst ha
      rw [alGet?_alSet_self]
      rw [Option.not_isSome_iff_eq_none.mp hs]
      simp [alGet?]
    · rw [alGet?_alSet_ne _ _ _ _ ha]

/-- Key self-freedom: no outer key occurs inside its own inner map. -/
def SelfFree (m : CoMatrix) : Prop :=
  ∀ x inn, alGet? m x = some inn → alGet? inn x = none

theorem selfFree_coBump {m : CoMatrix} {w1 w2 : Str}
    (hm : SelfFree m) (hw : w1 ≠ w2) : SelfFree (coBump m w1 w2) := by
  intro x inn hx
  unfold coBump at hx
  by_cases hxw : x = w1
  · subst hxw
    rw [alGet?_alSet_self] at hx
    obtain rfl := Option.some.inj hx
    rw [alGet?_alSet_ne _ _ _ _ hw]
    cases hg : alGet? m x with
    | none => simp [alGet?]
    | some i =>
      rw [Option.getD_some]
      exact hm x i hg
  · rw [alGet?_alSet_ne _ _ _ _ hxw] at hx
    exact hm x inn hx

theorem selfFree_ensureKey {m : CoMatrix} {w : Str}
    (hm : SelfFree m) : SelfFree (ensureKey m w) := by
  intro x inn hx
  unfold ensureKey at hx
  by_cases hs : (alGet? m w).isSome
  · rw [if_pos hs] at hx
    exact hm x inn hx
  · rw [if_neg hs] at hx
    by_cases hxw : x = w
    · subst hxw
      rw [alGet?_alSet_self] at hx
      obtain rfl := Option.some.inj hx
      rfl
    · rw [alGet?_alSet_ne _ _ _ _ hxw] at hx
      exact hm x inn hx

theorem getD_nodup_ne {uniq : List Str} (hnd : uniq.Nodup) {i j : ℕ}
    (hi : i < uniq.length) (hj : j < uniq.length) (hij : i ≠ j) :
    uniq.getD i [] ≠ uniq.getD j [] := by
  rw [uniq.getD_eq_get [] hi, uniq.getD_eq_get [] hj]
  intro h
  have := (List.Nodup.get_inj_iff hnd).mp h
  exact hij (by simpa using congrArg Fin.val this)

theorem selfFree_innerFold {uniq : List Str} (hnd : uniq.Nodup) (i : ℕ)
    (hi : i < uniq.length) :
    ∀ (js : List ℕ), (∀ j ∈ js, j < uniq.length) →
    ∀ {m : CoMatrix}, SelfFree m →
    SelfFree (js.foldl (fun m2 j =>
      if i ≠ j then coBump m2 (uniq.getD i []) (uniq.getD j []) else m2) m) := by
  intro js
  induction js with
  | nil =>
    intro _ m hm
    exact hm
  | cons j js ih =>
    intro hjs m hm
    rw [List.foldl_cons]
    refine ih (fun k hk => hjs k (List.mem_cons_of_mem _ hk)) ?_
    by_cases hij : i ≠ j
    · rw [if_pos hij]
      exact selfFree_coBump hm
        (getD_nodup_ne hnd hi (hjs j (List.mem_cons_self _ _)) hij)
    · rw [if_neg hij]
      exact hm

theorem selfFree_processDoc {uniq : List Str} (hnd : uniq.Nodup)
    {m : CoMatrix} (hm : SelfFree m) : SelfFree (processDoc m uniq) := by
  unfold processDoc
  have haux : ∀ (is : List ℕ), (∀ i ∈ is, i < uniq.length) →
      ∀ {m : CoMatrix}, SelfFree m →
      SelfFree (is.foldl (fun m i =>
        (List.range uniq.length).foldl (fun m2 j =>
          if i ≠ j then coBump m2 (uniq.getD i []) (uniq.getD j []) else m2)
          (ensureKey m (uniq.getD i []))) m) := by
    intro is
    induction is with
    | nil =>
      intro _ m hm
      exact hm
    | cons i is ih =>
      intro his m hm
      rw [List.foldl_cons]
      refine ih (fun k hk => his k (List.mem_cons_of_mem _ hk)) ?_
      exact selfFree_innerFold hnd i (his i (List.mem_cons_self _ _))
        (List.range uniq.length) (fun j hj => List.mem_range.mp hj)
        (selfFree_ensureKey hm)
  exact haux (List.range uniq.length) (fun i hi => List.mem_range.mp hi) hm

theorem selfFree_build (docs : List (List Str)) :
    SelfFree (buildCoOccurrenceMatrix docs) := by
  unfold buildCoOccurrenceMatrix
  have haux : ∀ (ds : List (List Str)) (m : CoMatrix), SelfFree m →
      SelfFree (ds.foldl (fun M doc => processDoc M (firstUniq doc)) m) := by
    intro ds
    induction ds with
    | nil =>
      intro m hm
      exact hm
    | cons d ds ih =>
      intro m hm
      rw [List.foldl_cons]
      exact ih _ (selfFree_processDoc (nodup_firstUniq d) hm)
  refine haux docs [] ?_
  intro x inn hx
  exact absurd hx (by simp [alGet?])

theorem coCount_innerFold (uniq : List Str) (i : ℕ) (a b : Str) :
    ∀ (js : List ℕ) (m : CoMatrix),
      coCount (js.foldl (fun m2 j =>
        if i ≠ j then coBump m2 (uniq.getD i []) (uniq.getD j []) else m2) m) a b =
      coCount m a b + (if a = uniq.getD i [] then
        js.countP (fun j => j ≠ i ∧ uniq.getD j [] = b) else 0) := by
  intro js
  induction js with
  | nil =>
    intro m
    simp
  | cons j js ih =>
    intro m
    rw [List.foldl_cons, ih, List.countP_cons]
    by_cases hij : i ≠ j
    · rw [if_pos hij, coCount_coBump]
      have hji : j ≠ i := fun h => hij h.symm
      by_cases ha : a = uniq.getD i []
      · by_cases hb : b = uniq.getD j []
        · have h1 : (a = uniq.getD i [] ∧ b = uniq.getD j []) := ⟨ha, hb⟩
          have h2 : decide (j ≠ i ∧ uniq.getD j [] = b) = true := by
            simp only [decide_eq_true_eq]
            exact ⟨hji, hb.symm⟩
          rw [if_pos h1, if_pos ha, if_pos ha, h2]
          norm_num
          omega
        · have h1 : ¬ (a = uniq.getD i [] ∧ b = uniq.getD j []) := fun h => hb h.2
          have h2 : decide (j ≠ i ∧ uniq.getD j [] = b) = false := by
            simp only [decide_eq_false_iff_not]
            rintro ⟨_, hgb⟩
            exact hb hgb.symm
          rw [if_neg h1, if_pos ha, if_pos ha, h2]
          simp
      · have h1 : ¬ (a = uniq.getD i [] ∧ b = uniq.getD j []) := fun h => ha h.1
        rw [if_neg h1, if_neg ha, if_neg ha]
    · rw [if_neg hij]
      push_neg at hij
      have h2 : decide (j ≠ i ∧ uniq.getD j [] = b) = false := by
        simp only [decide_eq_false_iff_not]
        rintro ⟨hji, _⟩
        exact hji hij.symm
      rw [h2]
      simp only [Bool.false_eq_true, if_false, add_zero]

theorem coCount_outerFold (uniq : List Str) (a b : Str) :
    ∀ (is : List ℕ) (m : CoMatrix),
      coCount (is.foldl (fun m i =>
        (List.range uniq.length).foldl (fun m2 j =>
          if i ≠ j then coBump m2 (uniq.getD i []) (uniq.getD j []) else m2)
          (ensureKey m (uniq.getD i []))) m) a b =
      coCount m a b + ((is.map (fun i => if a = uniq.getD i [] then
        (List.range uniq.length).countP (fun j => j ≠ i ∧ uniq.getD j [] = b)
        else 0)).sum) := by
  intro is
  induction is with
  | nil =>
    intro m
    simp
  | cons i is ih =>
    intro m
    rw [List.foldl_cons, ih, coCount_innerFold, coCount_ensureKey,
      List.map_cons, List.sum_cons, add_assoc]

theorem sum_map_ite_single {c ia : ℕ} :
    ∀ (l : List ℕ), l.Nodup → ia ∈ l →
      ((l.map (fun i => if i = ia then c else 0)).sum) = c := by
  intro l
  induction l with
  | nil =>
    intro _ h
    simp at h
  | cons x l ih =>
    intro hnd hmem
    rcases List.mem_cons.mp hmem with heq | hmem'
    · subst heq
      simp only [List.map_cons, List.sum_cons, if_pos rfl]
      have hnotin : ia ∉ l := (List.nodup_cons.mp hnd).1
      have hz : ∀ y ∈ l.map (fun i => if i = ia then c else 0), y = 0 := by
        intro y hy
        obtain ⟨i, hi, rfl⟩ := List.mem_map.mp hy
        rw [if_neg (fun h : i = ia => hnotin (h ▸ hi))]
      rw [List.sum_eq_zero hz]
      simp
    · have hx : x ≠ ia := fun h => (List.nodup_cons.mp hnd).1 (h ▸ hmem')
      simp only [List.map_cons, List.sum_cons, if_neg hx]
      rw [ih (List.nodup_cons.mp hnd).2 hmem', zero_add]

theorem countP_congr_list {α : Type} {p q : α → Bool} :
    ∀ (l : List α), (∀ x ∈ l, p x = q x) → l.countP p = l.countP q := by
  intro l
  induction l with
  | nil =>
    intro
    rfl
  | cons x l ih =>
    intro h
    rw [List.countP_cons, List.countP_cons, h x (List.mem_cons_self _ _),
      ih (fun y hy => h y (List.mem_cons_of_mem _ hy))]

theorem countP_eq_single {jb : ℕ} :
    ∀ (l : List ℕ), l.Nodup → jb ∈ l →
      l.countP (fun j => j = jb) = 1 := by
  intro l
  induction l with
  | nil =>
    intro _ h
    simp at h
  | cons x l ih =>
    intro hnd hmem
    rw [List.countP_cons]
    rcases List.mem_cons.mp hmem with heq | hmem'
    · subst heq
      have hnotin : jb ∉ l := (List.nodup_cons.mp hnd).1
      rw [if_pos (by simp)]
      have hz : l.countP (fun j => j = jb) = 0 := by
        rw [List.countP_eq_zero]
        intro j hj
        simp only [decide_eq_true_eq]
        intro h
        exact hnotin (h ▸ hj)
      rw [hz]
    · have hx : x ≠ jb := fun h => (List.nodup_cons.mp hnd).1 (h ▸ hmem')
      rw [if_neg (by simp [hx]), ih (List.nodup_cons.mp hnd).2 hmem']

theorem processDoc_delta {uniq : List Str} (hnd : uniq.Nodup) (a b : Str)
    (hab : a ≠ b) (m : CoMatrix) :
    coCount (processDoc m uniq) a b =
      coCount m a b + (if a ∈ uniq ∧ b ∈ uniq then 1 else 0) := by
  unfold processDoc
  rw [coCount_outerFold]
  congr 1
  by_cases hamem : a ∈ uniq
  · obtain ⟨⟨ia, hia⟩, hgeta⟩ := List.mem_iff_get.mp hamem
    have hgetDa : ∀ i (h : i < uniq.length), uniq.getD i [] = a ↔ i = ia := by
      intro i h
      constructor
      · intro hgi
        have heq : uniq.get ⟨i, h⟩ = uniq.get ⟨ia, hia⟩ := by
          rw [hgeta, ← uniq.getD_eq_get [] h]
          exact hgi
        have h2 := (List.Nodup.get_inj_iff hnd).mp heq
        simpa using congrArg Fin.val h2
      · rintro rfl
        rw [uniq.getD_eq_get [] h]
        exact hgeta
    by_cases hbmem : b ∈ uniq
    · obtain ⟨⟨jb, hjb⟩, hgetb⟩ := List.mem_iff_get.mp hbmem
      have hgetDb : ∀ j (h : j < uniq.length), uniq.getD j [] = b ↔ j = jb := by
        intro j h
        constructor
        · intro hgj
          have heq : uniq.get ⟨j, h⟩ = uniq.get ⟨jb, hjb⟩ := by
            rw [hgetb, ← uniq.getD_eq_get [] h]
            exact hgj
          have h2 := (List.Nodup.get_inj_iff hnd).mp heq
          simpa using congrArg Fin.val h2
        · rintro rfl
          rw [uniq.getD_eq_get [] h]
          exact hgetb
      have hne_idx : jb ≠ ia := by
        intro h
        have hfin : (⟨jb, hjb⟩ : Fin uniq.length) = ⟨ia, hia⟩ := Fin.ext h
        apply hab
        rw [← hgeta, ← hgetb, hfin]
      rw [if_pos ⟨hamem, hbmem⟩]
      have hmapc : (List.range uniq.length).map (fun i => if a = uniq.getD i [] then
          (List.range uniq.length).countP (fun j => j ≠ i ∧ uniq.getD j [] = b)
          else 0) =
          (List.range uniq.length).map (fun i => if i = ia then
          (List.range uniq.length).countP (fun j => j ≠ ia ∧ uniq.getD j [] = b)
          else 0) := by
        apply List.map_congr_left
        intro i hi
        have hilt := List.mem_range.mp hi
        by_cases hai : a = uniq.getD i []
        · have hiia : i = ia := (hgetDa i hilt).mp hai.symm
          rw [if_pos hai, if_pos hiia, hiia]
        · have hiia : i ≠ ia := fun h =>
            hai (((hgetDa i hilt).mpr h).symm)
          rw [if_neg hai, if_neg hiia]
      rw [hmapc, sum_map_ite_single _ (List.nodup_range _) (List.mem_range.mpr hia)]
      have hpc : (List.range uniq.length).countP
          (fun j => j ≠ ia ∧ uniq.getD j [] = b) =
          (List.range uniq.length).countP (fun j => j = jb) := by
        apply countP_congr_list
        intro j hj
        have hjlt := List.mem_range.mp hj
        by_cases hjjb : j = jb
        · subst hjjb
          have hl : decide (j ≠ ia ∧ uniq.getD j [] = b) = true := by
            simp only [decide_eq_true_eq]
            exact ⟨hne_idx, (hgetDb j hjlt).mpr rfl⟩
          have hr : decide (j = j) = true := by simp
          rw [hl, hr]
        · have hl : decide (j ≠ ia ∧ uniq.getD j [] = b) = false := by
            simp only [decide_eq_false_iff_not]
            rintro ⟨_, hgj⟩
            exact hjjb ((hgetDb j hjlt).mp hgj)
          have hr : decide (j = jb) = false := by
            simp only [decide_eq_false_iff_not]
            exact hjjb
          rw [hl, hr]
      rw [hpc, countP_eq_single _ (List.nodup_range _) (List.mem_range.mpr hjb)]
    · rw [if_neg (by tauto)]
      apply List.sum_eq_zero
      intro y hy
      obtain ⟨i, hi, rfl⟩ := List.mem_map.mp hy
      by_cases hai : a = uniq.getD i []
      · rw [if_pos hai]
        rw [List.countP_eq_zero]
        intro j hj
        simp only [decide_eq_true_eq]
        rintro ⟨_, hgb⟩
        apply hbmem
        have hjlt := List.mem_range.mp hj
        rw [← hgb, uniq.getD_eq_get [] hjlt]
        exact uniq.get_mem _ _
      · rw [if_neg hai]
  · rw [if_neg (by tauto)]
    apply List.sum_eq_zero
    intro y hy
    obtain ⟨i, hi, rfl⟩ := List.mem_map.mp hy
    have hilt := List.mem_range.mp hi
    rw [if_neg ?_]
    intro hai
    apply hamem
    rw [hai, uniq.getD_eq_get [] hilt]
    exact uniq.get_mem _ _

theorem coCount_build (docs : List (List Str)) (a b : Str) (hab : a ≠ b) :
    coCount (buildCoOccurrenceMatrix docs) a b =
      docs.countP (fun d => a ∈ d ∧ b ∈ d) := by
  unfold buildCoOccurrenceMatrix
  have haux : ∀ (ds : List (List Str)) (m : CoMatrix),
      coCount (ds.foldl (fun M doc => processDoc M (firstUniq doc)) m) a b =
      coCount m a b + ds.countP (fun d => a ∈ d ∧ b ∈ d) := by
    intro ds
    induction ds with
    | nil =>
      intro m
      simp
    | cons d ds ih =>
      intro m
      rw [List.foldl_cons, ih, processDoc_delta (nodup_firstUniq d) a b hab,
        List.countP_cons]
      have hiff : (a ∈ firstUniq d ∧ b ∈ firstUniq d) ↔ (a ∈ d ∧ b ∈ d) := by
        rw [mem_firstUniq, mem_firstUniq]
      by_cases hd : a ∈ d ∧ b ∈ d
      · rw [if_pos (hiff.mpr hd), if_pos (by simpa using hd)]
        omega
      · rw [if_neg (fun h => hd (hiff.mp h)), if_neg (by simpa using hd)]
        omega
  rw [haux docs []]
  simp [coCount, alGet?]

theorem coCount_pos_stored {M : CoMatrix} {a b : Str} (h : 0 < coCount M a b) :
    alGet? ((alGet? M a).getD []) b = some (coCount M a b) := by
  unfold coCount at h ⊢
  cases hg : alGet? ((alGet? M a).getD []) b with
  | none =>
    rw [hg] at h
    simp at h
  | some v =>
    simp

/-- C8: the co-occurrence matrix built at construction is symmetric and
self-pair-free: for stemmed tokens `a ≠ b` appearing together in at least
one corpus document, the stored entries `matrix[a][b]` and `matrix[b][a]`
both exist and hold the same count; and for every token `x`, the inner map
of `x` never contains the key `x` itself. -/
theorem coOccurrenceMatrix_symm_selfFree (data : Str) (fillers : List Str)
    (a b : Str) (hab : a ≠ b)
    (hocc : ∃ d ∈ (mkModel data fillers).corpusDocs, a ∈ d ∧ b ∈ d) :
    coCount (mkModel data fillers).coOccurrenceMatrix a b =
      coCount (mkModel data fillers).coOccurrenceMatrix b a ∧
    alGet? ((alGet? (mkModel data fillers).coOccurrenceMatrix a).getD []) b =
      some (coCount (mkModel data fillers).coOccurrenceMatrix a b) ∧
    alGet? ((alGet? (mkModel data fillers).coOccurrenceMatrix b).getD []) a =
      some (coCount (mkModel data fillers).coOccurrenceMatrix a b) ∧
    (∀ x inn, alGet? (mkModel data fillers).coOccurrenceMatrix x = some inn →
      alGet? inn x = none) := by
  have hmat : (mkModel data fillers).coOccurrenceMatrix =
      buildCoOccurrenceMatrix (mkModel data fillers).corpusDocs := rfl
  have hsymm : coCount (mkModel data fillers).coOccurrenceMatrix a b =
      coCount (mkModel data fillers).coOccurrenceMatrix b a := by
    rw [hmat, coCount_build _ a b hab, coCount_build _ b a (Ne.symm hab)]
    apply countP_congr_list
    intro d _
    exact decide_eq_decide.mpr And.comm
  have hpos : 0 < coCount (mkModel data fillers).coOccurrenceMatrix a b := by
    rw [hmat, coCount_build _ a b hab, List.countP_pos_iff]
    obtain ⟨d, hd, hadb⟩ := hocc
    exact ⟨d, hd, by simpa using hadb⟩
  refine ⟨hsymm, coCount_pos_stored hpos, ?_, ?_⟩
  · have := coCount_pos_stored (hsymm ▸ hpos)
    rw [this, ← hsymm]
  · intro x inn hx
    rw [hmat] at hx
    exact selfFree_build _ x inn hx

/-- C8 witness: the theorem applied to the one-sentence corpus `"a b"`,
whose two stemmed tokens co-occur in its single document. -/
theorem coOccurrenceMatrix_symm_selfFree_witness :
    coCount (mkModel (chars "a b") []).coOccurrenceMatrix (chars "a") (chars "b") =
      coCount (mkModel (chars "a b") []).coOccurrenceMatrix (chars "b") (chars "a") :=
  (coOccurrenceMatrix_symm_selfFree (chars "a b") [] (chars "a") (chars "b")
    (by decide) (by decide)).1

end NarrowMind
